import Mathlib

/-!
Verification of src/pprgo/pprgo.py (PPRGo / RobustPPRGo graph classifiers).

Tensors are embedded as rational matrices (lists of row lists).  The
`torch_sparse.SparseTensor` inputs are embedded by their dense value matrix:
only the values and shapes matter for the properties below.  External
primitives used by the source (`torch_scatter.scatter`, `torch.nn`
layers, the robust means of `rgnn_at_scale`) are embedded by their
documented semantics; the robust mean itself stays an abstract function
parameter, exactly as the source treats `ROBUST_MEANS[mean]`.
-/

set_option autoImplicit false

namespace PPRGoPytorch

/-- Dense value matrix standing for a torch tensor (row-major list of rows). -/
abbrev Matrix := List (List ℚ)

/-- Dot product of two equally long vectors, as computed by a linear layer. -/
def dot (a b : List ℚ) : ℚ := (List.zipWith (fun x y => x * y) a b).sum

/-- One layer of the `PPRGoMLP` stack, as appended by `PPRGoMLP.__init__`.

* `linear W` is `MixedLinear` / `nn.Linear` with `bias=False` and weight
  matrix `W` of shape `(out_features, in_features)`; the constructor has no
  bias field because every linear layer in the source is built with
  `bias=False`.  (`MixedLinear` lives in `pytorch_utils`, which is not under
  `src/`; modelled from the spec: a linear transform.)
* `batchNorm1d scale shift` is `nn.BatchNorm1d` (external, torch), in its
  evaluation form: a per-feature affine map with the given per-feature
  coefficients.
* `relu` is `nn.ReLU`.
* `dropout p` is `MixedDropout` (from `pytorch_utils`, not under `src/`);
  modelled from the spec: dropout, the identity map in evaluation mode. -/
inductive Layer
  | linear (W : Matrix)
  | batchNorm1d (scale shift : List ℚ)
  | relu
  | dropout (p : ℚ)
deriving DecidableEq

/-- Apply one layer to a batch of row vectors.  A linear layer computes
`X @ W.T`, i.e. output row `i` has entries `dot (X i) (W j)`. -/
def applyLayer (l : Layer) (X : Matrix) : Matrix :=
  match l with
  | .linear W => X.map (fun row => W.map (fun w => dot row w))
  | .batchNorm1d scale shift =>
      X.map (fun row => List.zipWith (fun p x => p.1 * x + p.2) (scale.zip shift) row)
  | .relu => X.map (fun row => row.map (fun x => if x < 0 then 0 else x))
  | .dropout _ => X

/-- `PPRGoMLP.forward`: run `self.layers` (an `nn.Sequential`) on `X`. -/
def PPRGoMLP.forward (layers : List Layer) (X : Matrix) : Matrix :=
  layers.foldl (fun M l => applyLayer l M) X

/-- The layer list built by `PPRGoMLP.__init__` for given weights.  `W0` is the
first `MixedLinear` weight (`hidden_size × num_features`); `mids` holds, for
each of the `nlayers - 2` middle loop iterations, the `nn.Linear` weight
(`hidden_size × hidden_size`) together with the BatchNorm parameters appended
after it; `Wlast` is the output `nn.Linear` weight
(`num_classes × hidden_size`); `bn0` holds the BatchNorm parameters appended
after the first linear layer.  BatchNorm layers are inserted iff
`batch_norm` is set, exactly as in the source. -/
def PPRGoMLP.initLayers (p : ℚ) (batch_norm : Bool) (W0 : Matrix)
    (bn0 : List ℚ × List ℚ) (mids : List (Matrix × (List ℚ × List ℚ)))
    (Wlast : Matrix) : List Layer :=
  (Layer.linear W0 :: (if batch_norm then [Layer.batchNorm1d bn0.1 bn0.2] else []))
  ++ mids.flatMap (fun m =>
      [Layer.relu, Layer.dropout p, Layer.linear m.1]
      ++ (if batch_norm then [Layer.batchNorm1d m.2.1 m.2.2] else []))
  ++ [Layer.relu, Layer.dropout p, Layer.linear Wlast]

/-- `src.size(1)` of a rectangular nonempty matrix. -/
def numCols (src : Matrix) : ℕ := (src.head?.map List.length).getD 0

/-- Entrywise sum of two vectors. -/
def vecAdd (a b : List ℚ) : List ℚ := List.zipWith (fun x y => x + y) a b

/-- Sum of a list of `cols`-vectors, starting from the zero vector. -/
def vecSum (cols : ℕ) (l : Matrix) : List ℚ := l.foldr vecAdd (List.replicate cols 0)

/-- The rows of `src` whose corresponding index equals `b`. -/
def selectAt (src : Matrix) (index : List ℕ) (b : ℕ) : Matrix :=
  ((src.zip index).filter (fun q => q.2 == b)).map (fun q => q.1)

/-- How many index entries equal `b`. -/
def countAt (index : List ℕ) (b : ℕ) : ℕ := (index.filter (fun i => i == b)).length

/-- `torch_scatter.scatter(src, index, dim=0, dim_size, reduce)` for a 2-d
`src` and a broadcast column index: output row `b` reduces the rows `src i`
with `index i = b` (`sum`, or `mean` = sum divided by the bucket size, zero
for an empty bucket).  `none` embeds the runtime error raised on a shape
mismatch, an index out of `dim_size` range, or an unsupported reduce. -/
def scatter (src : Matrix) (index : List ℕ) (dim_size : ℕ) (reduce : String) :
    Option Matrix :=
  if src.length = index.length ∧ ∀ b ∈ index, b < dim_size then
    if reduce = "sum" then
      some ((List.range dim_size).map (fun b => vecSum (numCols src) (selectAt src index b)))
    else if reduce = "mean" then
      some ((List.range dim_size).map (fun b =>
        if countAt index b = 0 then List.replicate (numCols src) 0
        else (vecSum (numCols src) (selectAt src index b)).map
          (fun x => x / (countAt index b : ℚ))))
    else none
  else none

/-- The aggregation step of `PPRGo.forward`: scale row `i` of the logits by
`ppr_scores i` (the broadcast product `logits * ppr_scores[:, None]`, which
requires matching lengths), then `scatter` with
`dim_size = ppr_idx[-1] + 1`; `none` embeds the failures (broadcast shape
mismatch, `ppr_idx[-1]` on an empty tensor, scatter error). -/
def pprgoAggregate (aggr : String) (logits : Matrix) (ppr_scores : List ℚ)
    (ppr_idx : List ℕ) : Option Matrix :=
  if ppr_scores.length = logits.length then
    match ppr_idx.getLast? with
    | some last =>
        scatter (List.zipWith (fun row s => row.map (fun x => s * x)) logits ppr_scores)
          ppr_idx (last + 1) aggr
    | none => none
  else none

/-- `PPRGo.forward`: logits from the MLP, then the scatter aggregation with
`reduce = self.aggr`. -/
def PPRGo.forward (layers : List Layer) (aggr : String) (X : Matrix)
    (ppr_scores : List ℚ) (ppr_idx : List ℕ) : Option Matrix :=
  pprgoAggregate aggr (PPRGoMLP.forward layers X) ppr_scores ppr_idx

/-- A keyword-argument value of `mean_kwargs` (`k`, `temperature`,
`with_weight_correction`, ...). -/
inductive KwVal
  | num (q : ℚ)
  | bool (b : Bool)
  | str (s : String)
deriving DecidableEq

/-- A Python keyword dictionary, embedded as an association list. -/
abbrev KwArgs := List (String × KwVal)

/-- Numeric view of a keyword value, for the comparison
`self._mean_kwargs["k"] > X.size(0)`; a Python bool compares as 0/1. -/
def KwVal.asRat : KwVal → ℚ
  | .num q => q
  | .bool b => if b then 1 else 0
  | .str _ => 0

/-- The numeric value stored under `key`, 0 if absent. -/
def kwRat (kw : KwArgs) (key : String) : ℚ :=
  match kw.lookup key with
  | some v => v.asRat
  | none => 0

/-- The keyword dictionary passed in the override branch of
`RobustPPRGo.forward`: `with_weight_correction=False` followed by
`**{k: v for k, v in self._mean_kwargs.items() if k != "with_weight_correction"}`. -/
def overrideKwargs (kw : KwArgs) : KwArgs :=
  ("with_weight_correction", KwVal.bool false)
    :: kw.filter (fun q => q.1 != "with_weight_correction")

/-- The aggregation step of `RobustPPRGo.forward`: call the robust mean
`self._mean` on the sparse PPR matrix and the logits, with
`with_weight_correction` forced to `False` when both `"k"` and
`"with_weight_correction"` occur in `self._mean_kwargs` and
`self._mean_kwargs["k"] > X.size(0) = n`, and with `self._mean_kwargs`
unchanged otherwise. -/
def robustAggregate (mean : Matrix → Matrix → KwArgs → Matrix) (kw : KwArgs)
    (n : ℕ) (logits : Matrix) (ppr_scores : Matrix) : Matrix :=
  if (kw.lookup "k").isSome && (kw.lookup "with_weight_correction").isSome then
    if kwRat kw "k" > (n : ℚ) then
      mean ppr_scores logits (overrideKwargs kw)
    else mean ppr_scores logits kw
  else mean ppr_scores logits kw

/-- `RobustPPRGo.forward`: logits from the MLP, then the robust mean, with
`self._mean = ROBUST_MEANS[mean]` (external) abstracted as `mean`. -/
def RobustPPRGo.forward (mean : Matrix → Matrix → KwArgs → Matrix) (kw : KwArgs)
    (layers : List Layer) (X : Matrix) (ppr_scores : Matrix) : Matrix :=
  robustAggregate mean kw X.length (PPRGoMLP.forward layers X) ppr_scores

/-- The module state of a `RobustPPRGo` instance: `self._mean` (a function
taken from `ROBUST_MEANS`, external), `self._mean_kwargs`, and the MLP layer
stack of `self.mlp`. -/
structure RobustState where
  mean : Matrix → Matrix → KwArgs → Matrix
  meanKwargs : KwArgs
  layers : List Layer

/-- `RobustPPRGo.forward` with the module state threaded explicitly: the
method body reads `self._mean`, `self._mean_kwargs` and `self.mlp` but
contains no assignment to `self`, so the state passes through unchanged. -/
def RobustState.forwardS (m : RobustState) (X ppr_scores : Matrix) :
    Matrix × RobustState :=
  (robustAggregate m.mean m.meanKwargs X.length
    (PPRGoMLP.forward m.layers X) ppr_scores, m)

/-- Is this layer a BatchNorm1d layer? -/
def Layer.isBN : Layer → Bool
  | .batchNorm1d _ _ => true
  | _ => false

/-- Is this layer a linear layer? -/
def Layer.isLin : Layer → Bool
  | .linear _ => true
  | _ => false

/-- Every linear layer of the list, apart from one standing last, is
immediately followed by a BatchNorm1d layer. -/
def linBNOk : List Layer → Bool
  | [] => true
  | [Layer.linear _] => true
  | Layer.linear _ :: l :: rest => l.isBN && linBNOk (l :: rest)
  | _ :: rest => linBNOk rest

/-- Well-shapedness of a layer stack: it maps batches of `din`-vectors to
batches of `dout`-vectors. -/
inductive StackDims : List Layer → ℕ → ℕ → Prop
  | nil (d : ℕ) : StackDims [] d d
  | linear {W : Matrix} {rest : List Layer} {d m e : ℕ}
      (hW : W.length = m) (hr : ∀ r ∈ W, r.length = d)
      (h : StackDims rest m e) : StackDims (Layer.linear W :: rest) d e
  | batchNorm1d {scale shift : List ℚ} {rest : List Layer} {d e : ℕ}
      (hs : scale.length = d) (hh : shift.length = d)
      (h : StackDims rest d e) : StackDims (Layer.batchNorm1d scale shift :: rest) d e
  | relu {rest : List Layer} {d e : ℕ}
      (h : StackDims rest d e) : StackDims (Layer.relu :: rest) d e
  | dropout {p : ℚ} {rest : List Layer} {d e : ℕ}
      (h : StackDims rest d e) : StackDims (Layer.dropout p :: rest) d e

/-! ### Basic lemmas about the MLP -/

theorem applyLayer_length (l : Layer) (X : Matrix) :
    (applyLayer l X).length = X.length := by
  cases l <;> simp [applyLayer]

theorem PPRGoMLP.forward_length (layers : List Layer) (X : Matrix) :
    (PPRGoMLP.forward layers X).length = X.length := by
  induction layers generalizing X with
  | nil => rfl
  | cons l ls ih =>
      show (PPRGoMLP.forward ls (applyLayer l X)).length = X.length
      rw [ih, applyLayer_length]

theorem applyLayer_rect {l : Layer} {X : Matrix} {d e : ℕ}
    (hd : StackDims [l] d e) (hX : ∀ r ∈ X, r.length = d) :
    ∀ r ∈ applyLayer l X, r.length = e := by
  cases hd with
  | linear hW hr h =>
      cases h
      intro r hrm
      simp only [applyLayer, List.mem_map] at hrm
      obtain ⟨row, _, rfl⟩ := hrm
      simp [hW]
  | batchNorm1d hs hh h =>
      cases h
      intro r hrm
      simp only [applyLayer, List.mem_map] at hrm
      obtain ⟨row, hrow, rfl⟩ := hrm
      simp [List.length_zipWith, List.length_zip, hs, hh, hX row hrow]
  | relu h =>
      cases h
      intro r hrm
      simp only [applyLayer, List.mem_map] at hrm
      obtain ⟨row, hrow, rfl⟩ := hrm
      simp [hX row hrow]
  | dropout h =>
      cases h
      exact hX

theorem PPRGoMLP.forward_rect {layers : List Layer} {d e : ℕ}
    (hd : StackDims layers d e) :
    ∀ {X : Matrix}, (∀ r ∈ X, r.length = d) →
      ∀ r ∈ PPRGoMLP.forward layers X, r.length = e := by
  induction hd with
  | nil d =>
      intro X hX
      exact hX
  | linear hW hr h ih =>
      intro X hX
      exact ih (applyLayer_rect (StackDims.linear hW hr (StackDims.nil _)) hX)
  | batchNorm1d hs hh h ih =>
      intro X hX
      exact ih (applyLayer_rect (StackDims.batchNorm1d hs hh (StackDims.nil _)) hX)
  | relu h ih =>
      intro X hX
      exact ih (applyLayer_rect (StackDims.relu (StackDims.nil _)) hX)
  | dropout h ih =>
      intro X hX
      exact ih (applyLayer_rect (StackDims.dropout (StackDims.nil _)) hX)

theorem StackDims.append {s₁ s₂ : List Layer} {a b c : ℕ}
    (h₁ : StackDims s₁ a b) (h₂ : StackDims s₂ b c) :
    StackDims (s₁ ++ s₂) a c := by
  induction h₁ with
  | nil d => exact h₂
  | linear hW hr h ih => exact StackDims.linear hW hr (ih h₂)
  | batchNorm1d hs hh h ih => exact StackDims.batchNorm1d hs hh (ih h₂)
  | relu h ih => exact StackDims.relu (ih h₂)
  | dropout h ih => exact StackDims.dropout (ih h₂)

/-! ### Lemmas about vectors, selection and scatter -/

theorem replicate_getD_zero (n j : ℕ) : (List.replicate n (0 : ℚ)).getD j 0 = 0 := by
  induction n generalizing j with
  | zero => cases j <;> rfl
  | succ n ih =>
      cases j with
      | zero => rfl
      | succ j => exact ih j

theorem vecAdd_length (a b : List ℚ) : (vecAdd a b).length = min a.length b.length := by
  simp [vecAdd]

theorem selectAt_mem {src : Matrix} {index : List ℕ} {b : ℕ} :
    ∀ r ∈ selectAt src index b, r ∈ src := by
  intro r hr
  simp only [selectAt, List.mem_map, List.mem_filter] at hr
  obtain ⟨q, ⟨hq, _⟩, rfl⟩ := hr
  exact (List.of_mem_zip hq).1

theorem vecSum_length {cols : ℕ} : ∀ {l : Matrix}, (∀ r ∈ l, r.length = cols) →
    (vecSum cols l).length = cols := by
  intro l
  induction l with
  | nil => intro _; simp [vecSum]
  | cons r rs ih =>
      intro h
      show (vecAdd r (vecSum cols rs)).length = cols
      rw [vecAdd_length, ih (fun x hx => h x (List.mem_cons_of_mem _ hx)),
        h r (List.mem_cons_self _ _)]
      simp

theorem vecAdd_getD : ∀ {a b : List ℚ} {j : ℕ}, j < a.length → j < b.length →
    (vecAdd a b).getD j 0 = a.getD j 0 + b.getD j 0 := by
  intro a
  induction a with
  | nil => intro b j ha _; simp at ha
  | cons x xs ih =>
      intro b j ha hb
      cases b with
      | nil => simp at hb
      | cons y ys =>
          have hstep : vecAdd (x :: xs) (y :: ys) = (x + y) :: vecAdd xs ys := rfl
          cases j with
          | zero => rw [hstep]; rfl
          | succ j =>
              rw [hstep, List.getD_cons_succ, List.getD_cons_succ, List.getD_cons_succ]
              exact ih (Nat.lt_of_succ_lt_succ ha) (Nat.lt_of_succ_lt_succ hb)

theorem map_getD_lt {g : ℚ → ℚ} : ∀ {row : List ℚ} {j : ℕ}, j < row.length →
    (row.map g).getD j 0 = g (row.getD j 0) := by
  intro row
  induction row with
  | nil => intro j hj; simp at hj
  | cons x xs ih =>
      intro j hj
      cases j with
      | zero => rfl
      | succ j =>
          rw [List.map_cons, List.getD_cons_succ, List.getD_cons_succ]
          exact ih (Nat.lt_of_succ_lt_succ hj)

theorem getD_mem {l : Matrix} {i : ℕ} (hi : i < l.length) : l.getD i [] ∈ l := by
  rw [List.getD_eq_getElem l [] hi]
  exact List.getElem_mem hi

theorem zipScale_rect {c : ℕ} : ∀ (logits : Matrix) (scores : List ℚ),
    (∀ r ∈ logits, r.length = c) →
    ∀ r ∈ List.zipWith (fun row s => row.map (fun x => s * x)) logits scores,
      r.length = c := by
  intro logits
  induction logits with
  | nil => intro scores _ r hr; simp at hr
  | cons row rows ih =>
      intro scores h r hr
      cases scores with
      | nil => simp at hr
      | cons s ss =>
          rw [List.zipWith_cons_cons] at hr
          rcases List.mem_cons.mp hr with rfl | hr
          · rw [List.length_map]; exact h row (List.mem_cons_self _ _)
          · exact ih ss (fun x hx => h x (List.mem_cons_of_mem _ hx)) r hr

theorem zipScale_getD : ∀ (logits : Matrix) (scores : List ℚ) (i : ℕ),
    i < logits.length → logits.length = scores.length →
    (List.zipWith (fun row s => row.map (fun x => s * x)) logits scores).getD i []
      = (logits.getD i []).map (fun x => scores.getD i 0 * x) := by
  intro logits
  induction logits with
  | nil => intro scores i hi _; simp at hi
  | cons row rows ih =>
      intro scores i hi hlen
      cases scores with
      | nil => simp at hlen
      | cons s ss =>
          rw [List.zipWith_cons_cons]
          cases i with
          | zero => rfl
          | succ i =>
              rw [List.getD_cons_succ, List.getD_cons_succ, List.getD_cons_succ]
              exact ih ss i (Nat.lt_of_succ_lt_succ hi) (Nat.succ.inj hlen)

theorem vecSum_selectAt_getD : ∀ (src : Matrix) (index : List ℕ) (b cols j : ℕ),
    (∀ r ∈ src, r.length = cols) → src.length = index.length → j < cols →
    (vecSum cols (selectAt src index b)).getD j 0
      = ∑ i ∈ Finset.range src.length,
          (if index.getD i 0 = b then (src.getD i []).getD j 0 else 0) := by
  intro src
  induction src with
  | nil =>
      intro index b cols j _ _ _
      simp [vecSum, selectAt, replicate_getD_zero]
  | cons r rs ih =>
      intro index b cols j hrect hlen hj
      cases index with
      | nil => simp at hlen
      | cons i0 is =>
          have hlen' : rs.length = is.length := Nat.succ.inj hlen
          have hrs : ∀ x ∈ rs, x.length = cols :=
            fun x hx => hrect x (List.mem_cons_of_mem _ hx)
          have hsel : selectAt (r :: rs) (i0 :: is) b
              = if i0 = b then r :: selectAt rs is b else selectAt rs is b := by
            by_cases hib : i0 = b
            · simp [selectAt, List.filter_cons, hib]
            · simp [selectAt, List.filter_cons, hib]
          rw [show (r :: rs).length = rs.length + 1 from rfl, Finset.sum_range_succ']
          simp only [List.getD_cons_succ, List.getD_cons_zero]
          rw [hsel]
          by_cases hib : i0 = b
          · rw [if_pos hib, if_pos hib]
            have hone : vecSum cols (r :: selectAt rs is b)
                = vecAdd r (vecSum cols (selectAt rs is b)) := rfl
            rw [hone, vecAdd_getD (by rw [hrect r (List.mem_cons_self _ _)]; exact hj)
                (by rw [vecSum_length (fun x hx => hrs x (selectAt_mem x hx))]; exact hj),
              ih is b cols j hrs hlen' hj]
            exact add_comm _ _
          · rw [if_neg hib, if_neg hib, ih is b cols j hrs hlen' hj]
            simp

theorem countAt_eq_sum : ∀ (index : List ℕ) (b : ℕ),
    countAt index b
      = ∑ i ∈ Finset.range index.length, (if index.getD i 0 = b then 1 else 0) := by
  intro index
  induction index with
  | nil => intro b; rfl
  | cons i0 is ih =>
      intro b
      rw [show (i0 :: is).length = is.length + 1 from rfl, Finset.sum_range_succ']
      simp only [List.getD_cons_succ, List.getD_cons_zero]
      rw [← ih b]
      by_cases hib : i0 = b
      · simp [countAt, List.filter_cons, hib, Nat.add_comm]
      · simp [countAt, List.filter_cons, hib]

theorem countAt_eq_card (index : List ℕ) (b : ℕ) :
    countAt index b
      = ((Finset.range index.length).filter (fun i => index.getD i 0 = b)).card := by
  rw [countAt_eq_sum, Finset.card_filter]

theorem numCols_eq {src : Matrix} {cols : ℕ} (hne : src ≠ [])
    (hrect : ∀ r ∈ src, r.length = cols) : numCols src = cols := by
  cases src with
  | nil => exact absurd rfl hne
  | cons r rs => simpa [numCols] using hrect r (List.mem_cons_self _ _)

theorem range_map_getD (n b : ℕ) (g : ℕ → List ℚ) (hb : b < n) :
    ((List.range n).map g).getD b [] = g b := by
  rw [List.getD_eq_getElem?_getD, List.getElem?_map, List.getElem?_range hb]
  rfl

theorem scatter_sum_eq {src : Matrix} {index : List ℕ} {dim_size : ℕ}
    (h1 : src.length = index.length) (h2 : ∀ b ∈ index, b < dim_size) :
    scatter src index dim_size "sum"
      = some ((List.range dim_size).map
          (fun b => vecSum (numCols src) (selectAt src index b))) := by
  unfold scatter
  rw [if_pos ⟨h1, h2⟩]
  rfl

theorem scatter_mean_eq {src : Matrix} {index : List ℕ} {dim_size : ℕ}
    (h1 : src.length = index.length) (h2 : ∀ b ∈ index, b < dim_size) :
    scatter src index dim_size "mean"
      = some ((List.range dim_size).map (fun b =>
          if countAt index b = 0 then List.replicate (numCols src) 0
          else (vecSum (numCols src) (selectAt src index b)).map
            (fun x => x / (countAt index b : ℚ)))) := by
  unfold scatter
  rw [if_pos ⟨h1, h2⟩, if_neg (by decide : ¬("mean" = "sum"))]
  rfl

theorem scatter_shape {src : Matrix} {index : List ℕ} {dim_size cols : ℕ}
    {reduce : String}
    (h1 : src.length = index.length) (h2 : ∀ b ∈ index, b < dim_size)
    (hrect : ∀ r ∈ src, r.length = cols) (hne : src ≠ [])
    (hred : reduce = "sum" ∨ reduce = "mean") :
    ∃ M, scatter src index dim_size reduce = some M
      ∧ M.length = dim_size ∧ ∀ r ∈ M, r.length = cols := by
  have hcols : numCols src = cols := numCols_eq hne hrect
  rcases hred with rfl | rfl
  · refine ⟨_, scatter_sum_eq h1 h2, by simp, ?_⟩
    intro r hr
    simp only [List.mem_map, List.mem_range] at hr
    obtain ⟨bb, _, rfl⟩ := hr
    rw [hcols]
    exact vecSum_length (fun x hx => hrect x (selectAt_mem x hx))
  · refine ⟨_, scatter_mean_eq h1 h2, by simp, ?_⟩
    intro r hr
    simp only [List.mem_map, List.mem_range] at hr
    obtain ⟨bb, _, rfl⟩ := hr
    by_cases hc : countAt index bb = 0
    · simp [hc, hcols]
    · rw [if_neg hc, List.length_map, hcols]
      exact vecSum_length (fun x hx => hrect x (selectAt_mem x hx))

theorem pprgo_forward_eq_scatter {layers : List Layer} {aggr : String} {X : Matrix}
    {ppr_scores : List ℚ} {ppr_idx : List ℕ} {last : ℕ}
    (hs : ppr_scores.length = X.length)
    (hlast : ppr_idx.getLast? = some last) :
    PPRGo.forward layers aggr X ppr_scores ppr_idx
      = scatter (List.zipWith (fun row s => row.map (fun x => s * x))
          (PPRGoMLP.forward layers X) ppr_scores) ppr_idx (last + 1) aggr := by
  unfold PPRGo.forward pprgoAggregate
  rw [if_pos (by rw [PPRGoMLP.forward_length]; exact hs), hlast]

/-! ### Lemmas about the layer stack built by PPRGoMLP.__init__ -/

theorem blocks_dims (p : ℚ) (batch_norm : Bool) (hsz : ℕ) :
    ∀ mids : List (Matrix × (List ℚ × List ℚ)),
      (∀ m ∈ mids, m.1.length = hsz ∧ (∀ r ∈ m.1, r.length = hsz)
        ∧ m.2.1.length = hsz ∧ m.2.2.length = hsz) →
      StackDims (mids.flatMap (fun m =>
        [Layer.relu, Layer.dropout p, Layer.linear m.1]
        ++ (if batch_norm then [Layer.batchNorm1d m.2.1 m.2.2] else []))) hsz hsz := by
  intro mids
  induction mids with
  | nil => intro _; exact StackDims.nil hsz
  | cons m ms ih =>
      intro h
      obtain ⟨h1, h2, h3, h4⟩ := h m (List.mem_cons_self _ _)
      have hrest := ih (fun x hx => h x (List.mem_cons_of_mem _ hx))
      rw [List.flatMap_cons]
      refine StackDims.append ?_ hrest
      cases batch_norm
      · exact StackDims.relu (StackDims.dropout
          (StackDims.linear h1 h2 (StackDims.nil hsz)))
      · exact StackDims.relu (StackDims.dropout
          (StackDims.linear h1 h2 (StackDims.batchNorm1d h3 h4 (StackDims.nil hsz))))

theorem initLayers_dims (p : ℚ) (batch_norm : Bool) (W0 : Matrix)
    (bn0 : List ℚ × List ℚ) (mids : List (Matrix × (List ℚ × List ℚ)))
    (Wlast : Matrix) (f hsz c : ℕ)
    (hW0 : W0.length = hsz) (hW0r : ∀ r ∈ W0, r.length = f)
    (hbn0a : bn0.1.length = hsz) (hbn0b : bn0.2.length = hsz)
    (hmids : ∀ m ∈ mids, m.1.length = hsz ∧ (∀ r ∈ m.1, r.length = hsz)
      ∧ m.2.1.length = hsz ∧ m.2.2.length = hsz)
    (hWl : Wlast.length = c) (hWlr : ∀ r ∈ Wlast, r.length = hsz) :
    StackDims (PPRGoMLP.initLayers p batch_norm W0 bn0 mids Wlast) f c := by
  unfold PPRGoMLP.initLayers
  refine StackDims.append
    (StackDims.append ?_ (blocks_dims p batch_norm hsz mids hmids)) ?_
  · cases batch_norm
    · exact StackDims.linear hW0 hW0r (StackDims.nil hsz)
    · exact StackDims.linear hW0 hW0r
        (StackDims.batchNorm1d hbn0a hbn0b (StackDims.nil hsz))
  · exact StackDims.relu (StackDims.dropout
      (StackDims.linear hWl hWlr (StackDims.nil c)))

theorem initLayers_getLast (p : ℚ) (batch_norm : Bool) (W0 : Matrix)
    (bn0 : List ℚ × List ℚ) (mids : List (Matrix × (List ℚ × List ℚ)))
    (Wlast : Matrix) :
    (PPRGoMLP.initLayers p batch_norm W0 bn0 mids Wlast).getLast?
      = some (Layer.linear Wlast) := by
  unfold PPRGoMLP.initLayers
  rw [List.getLast?_append_cons]
  rfl

theorem initLayers_no_bn (p : ℚ) (W0 : Matrix) (bn0 : List ℚ × List ℚ)
    (mids : List (Matrix × (List ℚ × List ℚ))) (Wlast : Matrix) :
    ∀ l ∈ PPRGoMLP.initLayers p false W0 bn0 mids Wlast, l.isBN = false := by
  intro l hl
  unfold PPRGoMLP.initLayers at hl
  simp only [Bool.false_eq_true, if_false, List.append_nil, List.mem_append,
    List.mem_cons, List.mem_flatMap, List.mem_singleton,
    List.not_mem_nil, or_false] at hl
  rcases hl with (rfl | ⟨m, _, (rfl | rfl | rfl)⟩) | (rfl | rfl | rfl) <;> rfl

theorem linBNOk_blocks (p : ℚ) (W : Matrix) :
    ∀ mids : List (Matrix × (List ℚ × List ℚ)),
      linBNOk (mids.flatMap (fun m =>
          [Layer.relu, Layer.dropout p, Layer.linear m.1,
            Layer.batchNorm1d m.2.1 m.2.2])
        ++ [Layer.relu, Layer.dropout p, Layer.linear W]) = true := by
  intro mids
  induction mids with
  | nil => rfl
  | cons m ms ih =>
      rw [List.flatMap_cons]
      exact ih

/-! ### Lemmas about keyword dictionaries and the robust aggregation -/

theorem lookup_filter_ne (a b : String) (hab : a ≠ b) :
    ∀ kw : KwArgs, (kw.filter (fun q => q.1 != b)).lookup a = kw.lookup a := by
  intro kw
  induction kw with
  | nil => rfl
  | cons q rest ih =>
      obtain ⟨k, v⟩ := q
      by_cases hk : k = b
      · subst hk
        simp only [List.filter_cons, bne_self_eq_false, Bool.false_eq_true, if_false]
        rw [ih]
        have hbeq : (a == k) = false := beq_eq_false_iff_ne.mpr hab
        simp [List.lookup, hbeq]
      · simp only [List.filter_cons, bne_iff_ne, ne_eq, hk, not_false_eq_true, if_true]
        by_cases hak : a = k
        · subst hak
          simp [List.lookup]
        · simp [List.lookup, hak, ih]

theorem robustAggregate_of_missing (mean : Matrix → Matrix → KwArgs → Matrix)
    (kw : KwArgs) (n : ℕ) (logits ppr_scores : Matrix)
    (h : (kw.lookup "k").isSome = false
      ∨ (kw.lookup "with_weight_correction").isSome = false) :
    robustAggregate mean kw n logits ppr_scores = mean ppr_scores logits kw := by
  unfold robustAggregate
  rcases h with h | h <;> simp [h]

theorem robustAggregate_of_le (mean : Matrix → Matrix → KwArgs → Matrix)
    (kw : KwArgs) (n : ℕ) (logits ppr_scores : Matrix) (kv : KwVal)
    (h1 : kw.lookup "k" = some kv) (h3 : kv.asRat ≤ (n : ℚ)) :
    robustAggregate mean kw n logits ppr_scores = mean ppr_scores logits kw := by
  unfold robustAggregate
  by_cases h2 : (kw.lookup "with_weight_correction").isSome
  · have hk : kwRat kw "k" = kv.asRat := by simp [kwRat, h1]
    simp [h1, h2, hk, not_lt.mpr h3]
  · simp [h2]

theorem robustAggregate_of_gt (mean : Matrix → Matrix → KwArgs → Matrix)
    (kw : KwArgs) (n : ℕ) (logits ppr_scores : Matrix) (kv wv : KwVal)
    (h1 : kw.lookup "k" = some kv)
    (h2 : kw.lookup "with_weight_correction" = some wv)
    (h3 : (n : ℚ) < kv.asRat) :
    robustAggregate mean kw n logits ppr_scores
      = mean ppr_scores logits (overrideKwargs kw) := by
  unfold robustAggregate
  have hk : kwRat kw "k" = kv.asRat := by simp [kwRat, h1]
  simp [h1, h2, hk, h3]

theorem scatter_some_length {src : Matrix} {index : List ℕ} {dim_size : ℕ}
    {reduce : String} {M : Matrix}
    (h : scatter src index dim_size reduce = some M) : M.length = dim_size := by
  unfold scatter at h
  split at h
  · split at h
    · obtain rfl := Option.some.inj h
      simp
    · split at h
      · obtain rfl := Option.some.inj h
        simp
      · exact absurd h (by simp)
  · exact absurd h (by simp)

/-! ### Claim theorems -/

/-- Claim C3: for every `RobustPPRGo` with mean `m` and keyword arguments
`kw`, and every `X` and sparse `ppr_scores` such that either `kw` lacks one of
the keys `"k"` / `"with_weight_correction"` or `kw "k"` is at most the number
of rows of `X`, `RobustPPRGo.forward` returns the robust mean
`ROBUST_MEANS m` applied to `ppr_scores`, the MLP logits of `X`, and the
unchanged keyword arguments. -/
theorem robustpprgo_forward_plain_mean
    (mean : Matrix → Matrix → KwArgs → Matrix) (kw : KwArgs)
    (layers : List Layer) (X ppr_scores : Matrix)
    (h : (kw.lookup "k").isSome = false
      ∨ (kw.lookup "with_weight_correction").isSome = false
      ∨ ∃ kv, kw.lookup "k" = some kv ∧ kv.asRat ≤ (X.length : ℚ)) :
    RobustPPRGo.forward mean kw layers X ppr_scores
      = mean ppr_scores (PPRGoMLP.forward layers X) kw := by
  rcases h with h | h | ⟨kv, h1, h3⟩
  · exact robustAggregate_of_missing _ _ _ _ _ (Or.inl h)
  · exact robustAggregate_of_missing _ _ _ _ _ (Or.inr h)
  · exact robustAggregate_of_le _ _ _ _ _ _ h1 h3

theorem robustpprgo_forward_plain_mean_witness :
    RobustPPRGo.forward (fun _ l _ => l) [("temperature", KwVal.num 1)]
        [] [[1]] [[2]]
      = (fun (_ l : Matrix) (_ : KwArgs) => l) [[2]]
          (PPRGoMLP.forward [] [[1]]) [("temperature", KwVal.num 1)] :=
  robustpprgo_forward_plain_mean (fun _ l _ => l) [("temperature", KwVal.num 1)]
    [] [[1]] [[2]] (Or.inl (by decide))

/-- Claim C9: whenever both `"k"` and `"with_weight_correction"` occur in the
mean kwargs and `X` has strictly fewer rows than `kw "k"`, the robust mean is
invoked with `with_weight_correction = False` while every other keyword
argument is passed unchanged. -/
theorem robustpprgo_forward_weight_correction_off
    (mean : Matrix → Matrix → KwArgs → Matrix) (kw : KwArgs)
    (layers : List Layer) (X ppr_scores : Matrix) (kv wv : KwVal)
    (h1 : kw.lookup "k" = some kv)
    (h2 : kw.lookup "with_weight_correction" = some wv)
    (h3 : (X.length : ℚ) < kv.asRat) :
    RobustPPRGo.forward mean kw layers X ppr_scores
        = mean ppr_scores (PPRGoMLP.forward layers X) (overrideKwargs kw)
      ∧ (overrideKwargs kw).lookup "with_weight_correction"
          = some (KwVal.bool false)
      ∧ ∀ key, key ≠ "with_weight_correction" →
          (overrideKwargs kw).lookup key = kw.lookup key := by
  refine ⟨robustAggregate_of_gt _ _ _ _ _ _ _ h1 h2 h3, ?_, ?_⟩
  · rfl
  · intro key hkey
    have hb : (key == "with_weight_correction") = false := beq_eq_false_iff_ne.mpr hkey
    unfold overrideKwargs
    rw [List.lookup, hb]
    exact lookup_filter_ne key _ hkey _

unseal Rat.add Rat.mul Rat.inv in
theorem robustpprgo_forward_weight_correction_off_witness :
    (overrideKwargs [("k", KwVal.num 2), ("with_weight_correction", KwVal.bool true)]).lookup
        "with_weight_correction" = some (KwVal.bool false) :=
  (robustpprgo_forward_weight_correction_off (fun s _ _ => s)
    [("k", KwVal.num 2), ("with_weight_correction", KwVal.bool true)]
    [] [[1]] [[5]] (KwVal.num 2) (KwVal.bool true)
    (by decide) (by decide) (by decide)).2.1

/-- Claim C10: `RobustPPRGo.forward` never mutates the module configuration:
the state after any call equals the state before it, and a subsequent call
whose input has at least `k` rows again uses the original keyword
arguments, `with_weight_correction` included. -/
theorem robustpprgo_forward_no_mutation (m : RobustState) (X ppr_scores : Matrix) :
    (m.forwardS X ppr_scores).2 = m
      ∧ ∀ X2 s2 kv wv, m.meanKwargs.lookup "k" = some kv →
          m.meanKwargs.lookup "with_weight_correction" = some wv →
          kv.asRat ≤ (X2.length : ℚ) →
          (((m.forwardS X ppr_scores).2).forwardS X2 s2).1
            = m.mean s2 (PPRGoMLP.forward m.layers X2) m.meanKwargs := by
  refine ⟨rfl, ?_⟩
  intro X2 s2 kv wv h1 h2 h3
  exact robustAggregate_of_le _ _ _ _ _ _ h1 h3

unseal Rat.add Rat.mul Rat.inv in
theorem robustpprgo_forward_no_mutation_witness :
    (((RobustState.mk (fun _ l _ => l)
          [("k", KwVal.num 1), ("with_weight_correction", KwVal.bool true)]
          []).forwardS [[1]] [[9]]).2.forwardS [[2], [3]] [[4]]).1
      = (fun (_ l : Matrix) (_ : KwArgs) => l) [[4]]
          (PPRGoMLP.forward [] [[2], [3]])
          [("k", KwVal.num 1), ("with_weight_correction", KwVal.bool true)] :=
  (robustpprgo_forward_no_mutation
      (RobustState.mk (fun _ l _ => l)
        [("k", KwVal.num 1), ("with_weight_correction", KwVal.bool true)] [])
      [[1]] [[9]]).2 [[2], [3]] [[4]] (KwVal.num 1) (KwVal.bool true)
    (by decide) (by decide) (by decide)

/-- Claim C5: both forwards are a single pass, MLP first, weighted
aggregation second: each factors definitionally through the MLP logits, and
the output depends on `X` only through `PPRGoMLP.forward layers X`. -/
theorem forward_single_pass_through_mlp (layers : List Layer) (X Y : Matrix)
    (h : PPRGoMLP.forward layers X = PPRGoMLP.forward layers Y) :
    (∀ aggr ppr_scores ppr_idx,
        PPRGo.forward layers aggr X ppr_scores ppr_idx
          = pprgoAggregate aggr (PPRGoMLP.forward layers X) ppr_scores ppr_idx
        ∧ PPRGo.forward layers aggr X ppr_scores ppr_idx
          = PPRGo.forward layers aggr Y ppr_scores ppr_idx)
      ∧ ∀ mean kw ppr_scores,
          RobustPPRGo.forward mean kw layers X ppr_scores
            = robustAggregate mean kw X.length (PPRGoMLP.forward layers X) ppr_scores
          ∧ RobustPPRGo.forward mean kw layers X ppr_scores
            = RobustPPRGo.forward mean kw layers Y ppr_scores := by
  have hlen : X.length = Y.length := by
    rw [← PPRGoMLP.forward_length layers X, ← PPRGoMLP.forward_length layers Y, h]
  constructor
  · intro aggr s idx
    exact ⟨rfl, by rw [PPRGo.forward, PPRGo.forward, h]⟩
  · intro mean kw s
    exact ⟨rfl, by rw [RobustPPRGo.forward, RobustPPRGo.forward, h, hlen]⟩

theorem forward_single_pass_through_mlp_witness :
    PPRGo.forward [] "sum" [[1]] [1] [0]
      = pprgoAggregate "sum" (PPRGoMLP.forward [] [[1]]) [1] [0] :=
  ((forward_single_pass_through_mlp [] [[1]] [[1]] rfl).1 "sum" [1] [0]).1

/-- Claim C4: whenever `PPRGo.forward` returns a tensor at all, its number of
rows is `ppr_idx[-1] + 1`, one plus the last element of `ppr_idx`, and an
empty `ppr_idx` makes the `ppr_idx[-1]` access fail. -/
theorem pprgo_forward_rows_from_last_idx (layers : List Layer) (aggr : String)
    (X : Matrix) (ppr_scores : List ℚ) (ppr_idx : List ℕ) :
    (∀ M last, PPRGo.forward layers aggr X ppr_scores ppr_idx = some M →
        ppr_idx.getLast? = some last → M.length = last + 1)
      ∧ (ppr_idx = [] →
          PPRGo.forward layers aggr X ppr_scores ppr_idx = none) := by
  constructor
  · intro M last hM hlast
    unfold PPRGo.forward pprgoAggregate at hM
    split at hM
    · rw [hlast] at hM
      exact scatter_some_length hM
    · exact absurd hM (by simp)
  · intro hidx
    subst hidx
    unfold PPRGo.forward pprgoAggregate
    split
    · rfl
    · rfl

unseal Rat.add Rat.mul Rat.inv in
theorem pprgo_forward_rows_from_last_idx_witness :
    ([[(1 : ℚ)]] : Matrix).length = 0 + 1 :=
  (pprgo_forward_rows_from_last_idx
      (PPRGoMLP.initLayers 0 false [[1]] ([], []) [] [[1]]) "sum"
      [[1]] [1] [0]).1 [[1]] 0 (by decide) (by decide)

unseal Rat.add Rat.mul Rat.inv in
/-- Claim C1 counterexample: with the two-layer MLP of all-one 1×1 weights,
`X = [[1], [1]]`, `ppr_scores = [1, 1]` and `ppr_idx = [1, 0]` (each entry a
batch id below `batch_size = 2`), `PPRGo.forward` does not return a tensor of
shape `(2, num_classes)`: `dim_size = ppr_idx[-1] + 1 = 1` and the scatter
index 1 is out of range, so the call fails. -/
theorem pprgo_forward_shape_cex :
    PPRGo.forward (PPRGoMLP.initLayers 0 false [[1]] ([], []) [] [[1]])
      "sum" [[1], [1]] [1, 1] [1, 0] = none := by
  decide

/-- Claim C2: for a PPRGo with the default `aggr = "sum"` and valid inputs,
row `b` of the output equals the sum, over all positions `i` with
`ppr_idx i = b`, of `ppr_scores i * mlp(X) i` (stated entrywise at every
column `j`). -/
theorem pprgo_forward_sum_rows (layers : List Layer) (f c : ℕ) (X : Matrix)
    (ppr_scores : List ℚ) (ppr_idx : List ℕ) (last b j : ℕ)
    (hdims : StackDims layers f c)
    (hX : ∀ r ∈ X, r.length = f)
    (hs : ppr_scores.length = X.length)
    (hi : ppr_idx.length = X.length)
    (hlast : ppr_idx.getLast? = some last)
    (hbound : ∀ i ∈ ppr_idx, i ≤ last)
    (hb : b ≤ last) (hj : j < c) :
    ∃ M, PPRGo.forward layers "sum" X ppr_scores ppr_idx = some M ∧
      (M.getD b []).getD j 0
        = ∑ i ∈ Finset.range X.length,
            (if ppr_idx.getD i 0 = b then
              ppr_scores.getD i 0 * ((PPRGoMLP.forward layers X).getD i []).getD j 0
            else 0) := by
  rw [pprgo_forward_eq_scatter hs hlast]
  have hXlen : (PPRGoMLP.forward layers X).length = X.length :=
    PPRGoMLP.forward_length _ _
  have hLrect : ∀ r ∈ PPRGoMLP.forward layers X, r.length = c :=
    PPRGoMLP.forward_rect hdims hX
  revert hXlen hLrect
  generalize PPRGoMLP.forward layers X = L
  intro hLlen hLrect
  have hsL : ppr_scores.length = L.length := by rw [hLlen]; exact hs
  have hWlen : (List.zipWith (fun row s => row.map (fun x => s * x)) L ppr_scores).length
      = L.length := by rw [List.length_zipWith, hsL]; simp
  have hWrect : ∀ r ∈ List.zipWith (fun row s => row.map (fun x => s * x)) L ppr_scores,
      r.length = c := zipScale_rect L ppr_scores hLrect
  have hWidx : (List.zipWith (fun row s => row.map (fun x => s * x)) L ppr_scores).length
      = ppr_idx.length := by rw [hWlen, hLlen, hi]
  have hbd : ∀ bb ∈ ppr_idx, bb < last + 1 :=
    fun bb hbb => Nat.lt_succ_of_le (hbound bb hbb)
  have hWne : List.zipWith (fun row s => row.map (fun x => s * x)) L ppr_scores ≠ [] := by
    rw [← List.length_pos_iff_ne_nil, hWidx]
    cases ppr_idx with
    | nil => simp at hlast
    | cons a t => simp
  rw [scatter_sum_eq hWidx hbd]
  refine ⟨_, rfl, ?_⟩
  rw [range_map_getD _ b _ (Nat.lt_succ_of_le hb), numCols_eq hWne hWrect,
    vecSum_selectAt_getD _ ppr_idx b c j hWrect hWidx hj, hWlen, hLlen]
  refine Finset.sum_congr rfl ?_
  intro i hi2
  rw [Finset.mem_range] at hi2
  by_cases hib : ppr_idx.getD i 0 = b
  · have hiL : i < L.length := by rw [hLlen]; exact hi2
    rw [if_pos hib, if_pos hib, zipScale_getD L ppr_scores i hiL hsL.symm,
      map_getD_lt (by rw [hLrect (L.getD i []) (getD_mem hiL)]; exact hj)]
  · rw [if_neg hib, if_neg hib]

unseal Rat.add Rat.mul Rat.inv in
theorem pprgo_forward_sum_rows_witness :
    ((PPRGo.forward (PPRGoMLP.initLayers 0 false [[1]] ([], []) [] [[1]])
          "sum" [[1], [2]] [2, 3] [0, 0]).getD []).length = 1 := by
  obtain ⟨M, hM, _⟩ := pprgo_forward_sum_rows
    (PPRGoMLP.initLayers 0 false [[1]] ([], []) [] [[1]]) 1 1
    [[1], [2]] [2, 3] [0, 0] 0 0 0
    (StackDims.linear rfl (by decide)
      (StackDims.relu (StackDims.dropout
        (StackDims.linear rfl (by decide) (StackDims.nil 1)))))
    (by decide) (by decide) (by decide) (by decide) (by decide) (by decide) (by decide)
  rw [hM]
  exact scatter_some_length ((@pprgo_forward_eq_scatter
    (PPRGoMLP.initLayers 0 false [[1]] ([], []) [] [[1]]) "sum" [[1], [2]]
    [2, 3] [0, 0] 0 (by decide) (by decide)).symm.trans hM)

/-- Claim C8: for a PPRGo constructed with `aggr = "mean"`, row `b` of the
output is the arithmetic mean over all positions `i` with `ppr_idx i = b` of
`ppr_scores i * mlp(X) i`: their sum divided by the number of such positions
(stated entrywise at every column `j`, for `b` with at least one position). -/
theorem pprgo_forward_mean_rows (layers : List Layer) (f c : ℕ) (X : Matrix)
    (ppr_scores : List ℚ) (ppr_idx : List ℕ) (last b j : ℕ)
    (hdims : StackDims layers f c)
    (hX : ∀ r ∈ X, r.length = f)
    (hs : ppr_scores.length = X.length)
    (hi : ppr_idx.length = X.length)
    (hlast : ppr_idx.getLast? = some last)
    (hbound : ∀ i ∈ ppr_idx, i ≤ last)
    (hb : b ≤ last) (hj : j < c)
    (hcnt : countAt ppr_idx b ≠ 0) :
    ∃ M, PPRGo.forward layers "mean" X ppr_scores ppr_idx = some M ∧
      (M.getD b []).getD j 0
        = (∑ i ∈ Finset.range X.length,
            (if ppr_idx.getD i 0 = b then
              ppr_scores.getD i 0 * ((PPRGoMLP.forward layers X).getD i []).getD j 0
            else 0))
          / (((Finset.range X.length).filter
              (fun i => ppr_idx.getD i 0 = b)).card : ℚ) := by
  rw [pprgo_forward_eq_scatter hs hlast]
  have hXlen : (PPRGoMLP.forward layers X).length = X.length :=
    PPRGoMLP.forward_length _ _
  have hLrect : ∀ r ∈ PPRGoMLP.forward layers X, r.length = c :=
    PPRGoMLP.forward_rect hdims hX
  revert hXlen hLrect
  generalize PPRGoMLP.forward layers X = L
  intro hLlen hLrect
  have hsL : ppr_scores.length = L.length := by rw [hLlen]; exact hs
  have hWlen : (List.zipWith (fun row s => row.map (fun x => s * x)) L ppr_scores).length
      = L.length := by rw [List.length_zipWith, hsL]; simp
  have hWrect : ∀ r ∈ List.zipWith (fun row s => row.map (fun x => s * x)) L ppr_scores,
      r.length = c := zipScale_rect L ppr_scores hLrect
  have hWidx : (List.zipWith (fun row s => row.map (fun x => s * x)) L ppr_scores).length
      = ppr_idx.length := by rw [hWlen, hLlen, hi]
  have hbd : ∀ bb ∈ ppr_idx, bb < last + 1 :=
    fun bb hbb => Nat.lt_succ_of_le (hbound bb hbb)
  have hWne : List.zipWith (fun row s => row.map (fun x => s * x)) L ppr_scores ≠ [] := by
    rw [← List.length_pos_iff_ne_nil, hWidx]
    cases ppr_idx with
    | nil => simp at hlast
    | cons a t => simp
  rw [scatter_mean_eq hWidx hbd]
  refine ⟨_, rfl, ?_⟩
  rw [range_map_getD _ b _ (Nat.lt_succ_of_le hb), if_neg hcnt,
    numCols_eq hWne hWrect,
    map_getD_lt (by
      rw [vecSum_length (fun x hx => hWrect x (selectAt_mem x hx))]; exact hj),
    vecSum_selectAt_getD _ ppr_idx b c j hWrect hWidx hj, hWlen, hLlen]
  have hsum : (∑ i ∈ Finset.range X.length,
        (if ppr_idx.getD i 0 = b then
          (List.zipWith (fun row s => row.map (fun x => s * x))
            L ppr_scores).getD i [] |>.getD j 0 else 0))
      = ∑ i ∈ Finset.range X.length,
          (if ppr_idx.getD i 0 = b then
            ppr_scores.getD i 0 * (L.getD i []).getD j 0 else 0) := by
    refine Finset.sum_congr rfl ?_
    intro i hi2
    rw [Finset.mem_range] at hi2
    by_cases hib : ppr_idx.getD i 0 = b
    · have hiL : i < L.length := by rw [hLlen]; exact hi2
      rw [if_pos hib, if_pos hib, zipScale_getD L ppr_scores i hiL hsL.symm,
        map_getD_lt (by rw [hLrect (L.getD i []) (getD_mem hiL)]; exact hj)]
    · rw [if_neg hib, if_neg hib]
  rw [hsum, countAt_eq_card, hi]

unseal Rat.add Rat.mul Rat.inv in
theorem pprgo_forward_mean_rows_witness :
    ((PPRGo.forward (PPRGoMLP.initLayers 0 false [[1]] ([], []) [] [[1]])
          "mean" [[1], [2]] [2, 3] [0, 0]).getD []).length = 1 := by
  obtain ⟨M, hM, _⟩ := pprgo_forward_mean_rows
    (PPRGoMLP.initLayers 0 false [[1]] ([], []) [] [[1]]) 1 1
    [[1], [2]] [2, 3] [0, 0] 0 0 0
    (StackDims.linear rfl (by decide)
      (StackDims.relu (StackDims.dropout
        (StackDims.linear rfl (by decide) (StackDims.nil 1)))))
    (by decide) (by decide) (by decide) (by decide) (by decide) (by decide) (by decide)
    (by decide)
  rw [hM]
  exact scatter_some_length ((@pprgo_forward_eq_scatter
    (PPRGoMLP.initLayers 0 false [[1]] ([], []) [] [[1]]) "mean" [[1], [2]]
    [2, 3] [0, 0] 0 (by decide) (by decide)).symm.trans hM)

/-- Claim C1 (amended): `PPRGo.forward` returns a tensor of shape
`(batch_size, num_classes)` for inputs whose `ppr_idx` entries are batch ids
below `batch_size`, provided additionally that the LAST entry of `ppr_idx` is
`batch_size - 1`; without that proviso the row count is `ppr_idx[-1] + 1`
(see the counterexample). -/
theorem pprgo_forward_shape (layers : List Layer) (f c B : ℕ) (aggr : String)
    (X : Matrix) (ppr_scores : List ℚ) (ppr_idx : List ℕ)
    (hdims : StackDims layers f c)
    (hX : ∀ r ∈ X, r.length = f)
    (hs : ppr_scores.length = X.length)
    (hi : ppr_idx.length = X.length)
    (haggr : aggr = "sum" ∨ aggr = "mean")
    (hids : ∀ bb ∈ ppr_idx, bb < B)
    (hlast : ppr_idx.getLast? = some (B - 1)) :
    ∃ M, PPRGo.forward layers aggr X ppr_scores ppr_idx = some M
      ∧ M.length = B ∧ ∀ r ∈ M, r.length = c := by
  have hLlen : (PPRGoMLP.forward layers X).length = X.length :=
    PPRGoMLP.forward_length _ _
  have hLrect : ∀ r ∈ PPRGoMLP.forward layers X, r.length = c :=
    PPRGoMLP.forward_rect hdims hX
  have hBpos : 0 < B := by
    cases ppr_idx with
    | nil => simp at hlast
    | cons a t => exact Nat.lt_of_le_of_lt (Nat.zero_le a) (hids a (List.mem_cons_self a t))
  have hsucc : B - 1 + 1 = B := Nat.succ_pred_eq_of_pos hBpos
  have hbd : ∀ bb ∈ ppr_idx, bb < B - 1 + 1 := by rw [hsucc]; exact hids
  have hWlen : (List.zipWith (fun row s => row.map (fun x => s * x))
      (PPRGoMLP.forward layers X) ppr_scores).length = ppr_idx.length := by
    rw [List.length_zipWith, hLlen, hs, hi]
    simp
  have hWrect := zipScale_rect (PPRGoMLP.forward layers X) ppr_scores hLrect
  have hWne : List.zipWith (fun row s => row.map (fun x => s * x))
      (PPRGoMLP.forward layers X) ppr_scores ≠ [] := by
    rw [← List.length_pos_iff_ne_nil, hWlen]
    cases ppr_idx with
    | nil => simp at hlast
    | cons a t => simp
  rw [pprgo_forward_eq_scatter hs hlast]
  obtain ⟨M, hM, hMl, hMr⟩ := scatter_shape hWlen hbd hWrect hWne haggr
  exact ⟨M, hM, by rw [hMl, hsucc], hMr⟩

unseal Rat.add Rat.mul Rat.inv in
theorem pprgo_forward_shape_witness :
    ((PPRGo.forward (PPRGoMLP.initLayers 0 false [[1]] ([], []) [] [[1]])
          "sum" [[1], [2]] [1, 1] [0, 1]).getD []).length = 2 := by
  obtain ⟨M, hM, hMl, _⟩ := pprgo_forward_shape
    (PPRGoMLP.initLayers 0 false [[1]] ([], []) [] [[1]]) 1 1 2 "sum"
    [[1], [2]] [1, 1] [0, 1]
    (StackDims.linear rfl (by decide)
      (StackDims.relu (StackDims.dropout
        (StackDims.linear rfl (by decide) (StackDims.nil 1)))))
    (by decide) (by decide) (by decide) (Or.inl rfl) (by decide) (by decide)
  rw [hM]
  exact hMl

/-- Claim C6: `PPRGoMLP.forward` maps `(n, num_features)` inputs to
`(n, num_classes)` outputs through the sequential stack built by the
constructor, whose first layer is the bias-free linear transform
`num_features → hidden_size` and whose last layer is the bias-free linear
transform `hidden_size → num_classes`, with ReLU and dropout in between. -/
theorem pprgomlp_forward_shape (p : ℚ) (batch_norm : Bool) (W0 : Matrix)
    (bn0 : List ℚ × List ℚ) (mids : List (Matrix × (List ℚ × List ℚ)))
    (Wlast : Matrix) (f hsz c : ℕ) (X : Matrix)
    (hW0 : W0.length = hsz) (hW0r : ∀ r ∈ W0, r.length = f)
    (hbn0a : bn0.1.length = hsz) (hbn0b : bn0.2.length = hsz)
    (hmids : ∀ m ∈ mids, m.1.length = hsz ∧ (∀ r ∈ m.1, r.length = hsz)
      ∧ m.2.1.length = hsz ∧ m.2.2.length = hsz)
    (hWl : Wlast.length = c) (hWlr : ∀ r ∈ Wlast, r.length = hsz)
    (hX : ∀ r ∈ X, r.length = f) :
    (PPRGoMLP.forward (PPRGoMLP.initLayers p batch_norm W0 bn0 mids Wlast) X).length
        = X.length
      ∧ (∀ r ∈ PPRGoMLP.forward (PPRGoMLP.initLayers p batch_norm W0 bn0 mids Wlast) X,
          r.length = c)
      ∧ (PPRGoMLP.initLayers p batch_norm W0 bn0 mids Wlast).head?
          = some (Layer.linear W0)
      ∧ (PPRGoMLP.initLayers p batch_norm W0 bn0 mids Wlast).getLast?
          = some (Layer.linear Wlast) :=
  ⟨PPRGoMLP.forward_length _ _,
    PPRGoMLP.forward_rect (initLayers_dims p batch_norm W0 bn0 mids Wlast f hsz c
      hW0 hW0r hbn0a hbn0b hmids hWl hWlr) hX,
    rfl,
    initLayers_getLast p batch_norm W0 bn0 mids Wlast⟩

unseal Rat.add Rat.mul Rat.inv in
theorem pprgomlp_forward_shape_witness :
    (PPRGoMLP.forward (PPRGoMLP.initLayers 0 true [[1]] ([1], [0]) [] [[1]])
        [[2]]).length = 1 :=
  (pprgomlp_forward_shape 0 true [[1]] ([1], [0]) [] [[1]] 1 1 1 [[2]]
    rfl (by decide) rfl rfl (by simp) rfl (by decide) (by decide)).1

/-- Claim C7: the stack built by `PPRGoMLP.__init__` contains a BatchNorm1d
layer iff `batch_norm = true`; when it does, every linear layer except the
final output linear layer (which stands last) is immediately followed by a
BatchNorm1d layer, and with `batch_norm = false` no normalization layer is
present at all. -/
theorem pprgomlp_batchnorm_structure (p : ℚ) (batch_norm : Bool) (W0 : Matrix)
    (bn0 : List ℚ × List ℚ) (mids : List (Matrix × (List ℚ × List ℚ)))
    (Wlast : Matrix) :
    ((∃ l ∈ PPRGoMLP.initLayers p batch_norm W0 bn0 mids Wlast, l.isBN = true)
        ↔ batch_norm = true)
      ∧ (batch_norm = true →
          linBNOk (PPRGoMLP.initLayers p batch_norm W0 bn0 mids Wlast) = true)
      ∧ (batch_norm = false →
          ∀ l ∈ PPRGoMLP.initLayers p batch_norm W0 bn0 mids Wlast, l.isBN = false)
      ∧ (PPRGoMLP.initLayers p batch_norm W0 bn0 mids Wlast).getLast?
          = some (Layer.linear Wlast) := by
  refine ⟨?_, ?_, ?_, initLayers_getLast p batch_norm W0 bn0 mids Wlast⟩
  · cases batch_norm
    · constructor
      · rintro ⟨l, hl, hbn⟩
        rw [initLayers_no_bn p W0 bn0 mids Wlast l hl] at hbn
        exact hbn
      · intro h
        exact absurd h (by simp)
    · constructor
      · intro _
        rfl
      · intro _
        refine ⟨Layer.batchNorm1d bn0.1 bn0.2, ?_, rfl⟩
        exact List.mem_append_left _
          (List.mem_append_left _ (List.mem_cons_of_mem _ (List.mem_cons_self _ _)))
  · intro h
    subst h
    exact linBNOk_blocks p Wlast mids
  · intro h
    subst h
    exact initLayers_no_bn p W0 bn0 mids Wlast

theorem pprgomlp_batchnorm_structure_witness :
    linBNOk (PPRGoMLP.initLayers 0 true [[1]] ([1], [0]) [] [[1]]) = true :=
  (pprgomlp_batchnorm_structure 0 true [[1]] ([1], [0]) [] [[1]]).2.1 rfl

end PPRGoPytorch
